import Mathlib

/-!
Shallow embedding of the code-intelligence index implemented in
`rag_system.py` (classes `CodeChunker`, `CodeAnalyzer`, `FileDependencyAnalyzer`
and `RAGSystem`), together with theorems settling the specification claims
about chunk spans, index alignment, the context budget, search bounds and
boosting, chunk-id determinism, cache validity, failure isolation, and the
dependency graph.

Modelling conventions, used consistently below:
* Python strings are Lean `String`s.  The Python string operations used by the
  source (split on a newline, join with a newline, prefix slice, `strip`
  truthiness, `upper`) are embedded as executable char-list functions
  (`strLines`, `joinNl`, `takeChars`, `stripNonEmpty`, `upperStr`) so that
  every theorem can be checked on concrete inputs by kernel evaluation.
* The embedding model, the FAISS vector index and file modification times are
  modelled with exact numbers: embedding vectors are `List ℚ`, similarity
  scores are `ℚ`, modification times are `ℕ`.  None of the proved properties
  depends on floating-point rounding.
* The approximate-nearest-neighbour lookup itself is an external library
  call; it is abstracted as an input list of `(score, ordinal)` candidate
  pairs, so every theorem about `search` holds for an arbitrary result of
  that call.
* Python `dict` insertion (insert-or-overwrite keeping the original position)
  is `dictInsert` on an insertion-ordered association list; the per-file
  counter dictionary of `search`, which is only ever read back through
  `.get(path, 0)`, is modelled as a function `String → ℕ`.
-/

/-! ### Char-list string operations mirroring the Python string methods -/

/-- Helper for `strLines`: accumulates the current line (reversed). -/
def splitNlAux : List Char → List Char → List (List Char)
  | [], acc => [acc.reverse]
  | c :: rest, acc =>
    if c = '\n' then acc.reverse :: splitNlAux rest []
    else splitNlAux rest (c :: acc)

/-- Python `content.split(chr(10))`: every newline separates, empty pieces are
kept, the empty string yields one empty piece. -/
def strLines (s : String) : List String :=
  (splitNlAux s.data []).map String.mk

/-- Python `join` with a newline separator. -/
def joinNl : List String → String
  | [] => ""
  | [x] => x
  | x :: xs => x ++ "\n" ++ joinNl xs

/-- Python prefix slice `s[:n]` (by code point, as in Python). -/
def takeChars (s : String) (n : Nat) : String :=
  String.mk (s.data.take n)

/-- Python truthiness of `s.strip()`: some character is not whitespace. -/
def stripNonEmpty (s : String) : Bool :=
  s.data.any (fun c => !c.isWhitespace)

/-- Python `s.upper()` (ASCII, which is all the source applies it to). -/
def upperStr (s : String) : String :=
  String.mk (s.data.map Char.toUpper)

/-- Number of characters of `s` (Python `len`). -/
def strLen (s : String) : Nat :=
  s.data.length

/-! ### `CodeChunker`: chunk dictionaries, ids and the generic chunker -/

/-- Mirror of the dictionary returned by `CodeChunker._create_chunk`
(`rag_system.py`), restricted to the keys the claims quantify over:
the raw text slice, the relative file path, the id, the 0-based inclusive
line span and the chunk kind.  The derived `description` and the language
analysis keys do not influence any span, id, ordering or budget property. -/
structure ChunkDict where
  content : String
  file_path : String
  chunk_id : String
  start_line : Nat
  end_line : Nat
  chunk_type : String
deriving Repr, DecidableEq, Inhabited

/-- The string `file_path:start_line:end_line:content[:100]` that
`CodeChunker._create_chunk` feeds to `hashlib.md5`.  The md5 digest itself is
modelled by an arbitrary function applied on top (`chunkIdWith`): every
determinism property below holds for any choice of digest function. -/
def createChunkId (fp : String) (s e : Nat) (content : String) : String :=
  fp ++ ":" ++ toString s ++ ":" ++ toString e ++ ":" ++ takeChars content 100

/-- `chunk_id` as computed by `_create_chunk`: a digest function applied to
`createChunkId`. -/
def chunkIdWith (hash : String → String) (fp : String) (s e : Nat)
    (content : String) : String :=
  hash (createChunkId fp s e content)

/-- Python `range(0, stop, step)` for a positive `step`:
the multiples of `step` below `stop`. -/
def rangeStep (stop step : Nat) : List Nat :=
  (List.range ((stop + step - 1) / step)).map (· * step)

/-- One window of `CodeChunker._chunk_generic` starting at line `i`:
`end = min(i + chunk_size, len(lines))`, the window text is the newline-join
of `lines[i:end]`, and the window is kept only when that text strips to
something non-empty; the produced dictionary is `_create_chunk(text, fp, i,
end - 1, block)` restricted to the modelled keys. -/
def genericWindow (content : String) (fp : String) (i : Nat) : Option ChunkDict :=
  let lines := strLines content
  let n := lines.length
  let e := min (i + min 50 n) n
  let cc := joinNl ((lines.drop i).take (e - i))
  if stripNonEmpty cc then
    some { content := cc, file_path := fp,
           chunk_id := createChunkId fp i (e - 1) cc,
           start_line := i, end_line := e - 1, chunk_type := "block" }
  else none

/-- The windows of `_chunk_generic` in order: start lines are
`range(0, len(lines), chunk_size - overlap)` with
`chunk_size = min(50, len(lines))` and `overlap = 5`. -/
def genericWindows (content : String) (fp : String) : List ChunkDict :=
  (rangeStep (strLines content).length (min 50 (strLines content).length - 5)).filterMap
    (genericWindow content fp)

/-- `CodeChunker._chunk_generic` (`rag_system.py`): split into lines, then a
sliding window of `chunk_size = min(50, len(lines))` lines advancing by
`chunk_size - overlap` with `overlap = 5`; windows whose text strips to empty
are dropped.  `none` models the `ValueError` Python raises from
`range(0, len(lines), 0)` when the file has exactly 5 lines (then
`chunk_size - overlap == 0`); for files of 1 to 4 lines the step is negative
and `range` is empty, so no chunk at all is produced.  `detect_language`
routes every file without a language-specific strategy here, e.g. any
`.txt` file. -/
def chunkGeneric (content : String) (fp : String) : Option (List ChunkDict) :=
  if min 50 (strLines content).length ≤ 5 then
    if min 50 (strLines content).length = 5 then none else some []
  else
    some (genericWindows content fp)

/-- Decidable rendering of claim C1's property for one chunk list, written
from the claim's words (the one spec-side definition, kept for comparison
with the behaviour of `chunkGeneric`): ordered by `start_line`, the first
fragment starts at line 0, each next fragment starts right after the
previous one ends, the last fragment ends at the file's last line, and spans
are well formed — together: the spans tile the file exactly once. -/
def specContiguousCover (cs : List ChunkDict) (numLines : Nat) : Bool :=
  match cs with
  | [] => numLines == 0
  | c0 :: _ =>
    c0.start_line == 0
    && (cs.zip cs.tail).all (fun p => p.2.start_line == p.1.end_line + 1)
    && (match cs.getLast? with
        | some clast => clast.end_line + 1 == numLines
        | none => false)
    && cs.all (fun c => c.start_line ≤ c.end_line)

/-- Bool-valued span invariant for a chunk list: strictly increasing
`start_line`s, each span well formed and contained in the file. -/
def spanInvariant (cs : List ChunkDict) (numLines : Nat) : Bool :=
  (cs.zip cs.tail).all (fun p => p.1.start_line < p.2.start_line)
  && cs.all (fun c => c.start_line ≤ c.end_line && c.end_line < numLines)

/-! ### `RAGSystem.index_project`: chunk map, id list, vector index -/

/-- Mirror of the dataclass `CodeChunk` (`rag_system.py`), restricted to the
fields the claims quantify over; the symbol-list fields copied verbatim from
the chunk dictionary play no role in any claim about spans, ordering,
alignment or budgets.  `embedding` is `none` before indexing and `some v`
after, as in the source. -/
structure CodeChunk where
  content : String
  file_path : String
  chunk_id : String
  start_line : Nat
  end_line : Nat
  chunk_type : String
  description : String
  embedding : Option (List ℚ)
deriving Repr, DecidableEq, Inhabited

/-- The `CodeChunk(...)` construction inside `index_project`, with the
embedding just computed for this chunk attached
(`chunk.embedding = embedding`). -/
def toCodeChunk (cd : ChunkDict) (desc : String) (v : List ℚ) : CodeChunk :=
  { content := cd.content, file_path := cd.file_path, chunk_id := cd.chunk_id,
    start_line := cd.start_line, end_line := cd.end_line,
    chunk_type := cd.chunk_type, description := desc, embedding := some v }

/-- Python `d[k] = v` on an insertion-ordered dictionary: overwrite in place
if the key exists, else append. -/
def dictInsert (m : List (String × CodeChunk)) (k : String) (v : CodeChunk) :
    List (String × CodeChunk) :=
  if m.any (fun p => p.1 == k) then
    m.map (fun p => if p.1 == k then (k, v) else p)
  else m ++ [(k, v)]

/-- Python `k in d` / `d[k]` read on the dictionary model. -/
def assocFind (m : List (String × CodeChunk)) (k : String) : Option CodeChunk :=
  (m.find? (fun p => p.1 == k)).map (fun p => p.2)

/-- The three structures owned by `RAGSystem` that claim C2 relates:
`self.chunks` (fragment map), `self.chunk_ids` (parallel id list) and
`self.index` (the vector index, modelled as the list of vectors it holds, in
insertion order; `none` when no index object exists). -/
structure IndexState where
  chunks : List (String × CodeChunk)
  chunkIds : List String
  index : Option (List (List ℚ))
deriving Repr, DecidableEq

/-- Core of `RAGSystem.index_project` after per-file chunking produced
`allChunks`: reset the map and id list, then for each chunk dictionary build
the `CodeChunk`, compute its embedding and append to map, embedding list and
id list in lockstep; a per-chunk failure (the `except` around construction
and `self.embedder.encode`, modelled by `embed cd = none`) skips that chunk
and continues.  At the end, only `if embeddings:` is the FAISS index rebuilt,
from the L2-normalised matrix (`normalize` applied entrywise); otherwise
`self.index` keeps its prior value. -/
def indexProjectCore (prior : Option (List (List ℚ)))
    (embed : ChunkDict → Option (List ℚ)) (normalize : List ℚ → List ℚ)
    (desc : ChunkDict → String) (allChunks : List ChunkDict) : IndexState :=
  let r := allChunks.foldl
    (fun (acc : List (String × CodeChunk) × List (List ℚ) × List String) cd =>
      match embed cd with
      | some v =>
        (dictInsert acc.1 cd.chunk_id (toCodeChunk cd (desc cd) v),
         acc.2.1 ++ [v], acc.2.2 ++ [cd.chunk_id])
      | none => acc)
    ([], [], [])
  { chunks := r.1, chunkIds := r.2.2,
    index := if r.2.1.isEmpty then prior else some (r.2.1.map normalize) }

/-- The sublist of `allChunks` that survives the per-chunk `try`, paired with
the embedding computed for each survivor. -/
def embeddedChunks (embed : ChunkDict → Option (List ℚ))
    (allChunks : List ChunkDict) : List (ChunkDict × List ℚ) :=
  allChunks.filterMap (fun cd => (embed cd).map (fun v => (cd, v)))

/-- Bool-valued rendering of the positional alignment of claim C2: for every
ordinal `i`, the id at position `i` of the id list is the id of the `i`-th
embedded chunk, that id keys the corresponding `CodeChunk` in the map, and
the vector at position `i` of the index is that chunk's normalised
embedding. -/
def positionsAligned (st : IndexState) (normalize : List ℚ → List ℚ)
    (desc : ChunkDict → String) (good : List (ChunkDict × List ℚ)) : Bool :=
  (List.range good.length).all (fun i =>
    match good.get? i, st.chunkIds.get? i, (st.index.getD []).get? i with
    | some (cd, v), some cid, some w =>
      cid == cd.chunk_id
      && assocFind st.chunks cid == some (toCodeChunk cd (desc cd) v)
      && w == normalize v
    | _, _, _ => false)

/-! ### `RAGSystem.search` -/

/-- `self.chunks[chunk_id]` — in the source the id always comes from
`self.chunk_ids`, whose entries key the map, so the read never fails; the
model totalises it with the default chunk. -/
def assocGetChunk (m : List (String × CodeChunk)) (k : String) : CodeChunk :=
  match m.find? (fun p => p.1 == k) with
  | some p => p.2
  | none => default

/-- The score adjustment of `RAGSystem.search`: multiply by 1.5 when a
truthy (non-`None`, non-empty) `current_file` equals the chunk's `file_path`
(Python `if current_file and chunk.file_path == current_file`). -/
def boostScore (cf : Option String) (ch : CodeChunk) (score : ℚ) : ℚ :=
  match cf with
  | some s => if s ≠ "" ∧ ch.file_path = s then score * (3 / 2) else score
  | none => score

/-- The candidate loop of `RAGSystem.search`: walk the `(score, ordinal)`
pairs returned by the FAISS lookup; for each in-range ordinal, fetch the
chunk, adjust its score by `boostScore`, append it unless its file already
contributed 3 chunks, and stop as soon as `k` results are collected.  `cnt`
is the `file_chunk_count` dictionary read through `.get(path, 0)`, modelled
as a function. -/
def collectGo (k : Nat) (ids : List String) (m : List (String × CodeChunk))
    (cf : Option String) :
    List (ℚ × Nat) → List (CodeChunk × ℚ) → (String → Nat) →
    List (CodeChunk × ℚ)
  | [], res, _ => res
  | (score, idx) :: rest, res, cnt =>
    if idx < ids.length then
      let ch := assocGetChunk m (ids.getD idx "")
      let fc := cnt ch.file_path
      let res' := if fc < 3 then res ++ [(ch, boostScore cf ch score)] else res
      let cnt' := if fc < 3 then
          (fun x => if x = ch.file_path then fc + 1 else cnt x) else cnt
      if k ≤ res'.length then res'
      else collectGo k ids m cf rest res' cnt'
    else
      collectGo k ids m cf rest res cnt

/-- `results.sort(key=score, reverse=True)`: Python's sort is stable, so the
result is the stable descending reordering, which is insertion sort under
"comes before iff its score is at least the other's". -/
def sortDesc (l : List (CodeChunk × ℚ)) : List (CodeChunk × ℚ) :=
  l.insertionSort (fun a b => b.2 ≤ a.2)

instance : IsTotal (CodeChunk × ℚ) (fun a b => b.2 ≤ a.2) :=
  ⟨fun a b => le_total b.2 a.2⟩

instance : IsTrans (CodeChunk × ℚ) (fun a b => b.2 ≤ a.2) :=
  ⟨fun _ _ _ h1 h2 => le_trans h2 h1⟩

/-- `RAGSystem.search` after the empty-index gate: collect, sort by adjusted
score descending, truncate to `k` and strip the scores. -/
def searchCore (k : Nat) (ids : List String) (m : List (String × CodeChunk))
    (cf : Option String) (cands : List (ℚ × Nat)) : List CodeChunk :=
  ((sortDesc (collectGo k ids m cf cands [] (fun _ => 0))).take k).map
    (fun p => p.1)

/-- `RAGSystem.search`: `if not self.index or not self.chunks: return []`,
else the candidate pipeline.  `index` is the vector index (`None` or built),
`m` the fragment map, `ids` the parallel id list, `cands` the abstracted
FAISS result for the embedded query. -/
def searchModel (index : Option (List (List ℚ)))
    (m : List (String × CodeChunk)) (ids : List String) (k : Nat)
    (cf : Option String) (cands : List (ℚ × Nat)) : List CodeChunk :=
  if index.isNone || m.isEmpty then []
  else searchCore k ids m cf cands

/-! ### `RAGSystem.get_relevant_context_smart`: packing into the budget -/

/-- Appending one chunk record under its file key in `chunk_contents`
(insertion-ordered dictionary of lists). -/
def addChunkTo (m : List (String × List CodeChunk)) (fp : String)
    (c : CodeChunk) : List (String × List CodeChunk) :=
  if m.any (fun p => p.1 == fp) then
    m.map (fun p => if p.1 == fp then (p.1, p.2 ++ [c]) else p)
  else m ++ [(fp, [c])]

/-- The full-file loop of `get_relevant_context_smart`: walk the candidate
set (`files_for_full_content`, in iteration order, paired with the file's
content or `none` when the file does not exist or cannot be read); a file is
stored and charged to `total_chars` only when `total_chars + len(content) <=
max_tokens * 4`; an oversized file is skipped whole and the loop continues. -/
def fullPhase (budget : Nat) :
    List (String × Option String) → List (String × String) × Nat →
    List (String × String) × Nat
  | [], st => st
  | (_, none) :: rest, st => fullPhase budget rest st
  | (p, some c) :: rest, (acc, tot) =>
    if tot + strLen c ≤ budget then
      fullPhase budget rest (acc ++ [(p, c)], tot + strLen c)
    else fullPhase budget rest (acc, tot)

/-- The fragment loop of `get_relevant_context_smart`: walk the search
results; chunks of files in the full-content candidate set are skipped; the
first remaining chunk whose `len(content) + len(description)` would push
`total_chars` past `max_tokens * 4` stops the whole loop (`break`); others
are grouped under their file and charged. -/
def chunkPhase (budget : Nat) (fullSet : List String) :
    List CodeChunk → List (String × List CodeChunk) × Nat →
    List (String × List CodeChunk) × Nat
  | [], st => st
  | c :: rest, (acc, tot) =>
    if fullSet.contains c.file_path then chunkPhase budget fullSet rest (acc, tot)
    else if budget < tot + (strLen c.content + strLen c.description) then
      (acc, tot)
    else
      chunkPhase budget fullSet rest
        (addChunkTo acc c.file_path c,
         tot + (strLen c.content + strLen c.description))

/-- The per-fragment header written into a partial file's entry:
newline, hash mark, upper-cased kind, the line span, the description,
newline, then the fragment content. -/
def fmtChunk (c : CodeChunk) : String :=
  "\n# " ++ upperStr c.chunk_type ++ " (" ++ toString c.start_line ++ "-"
    ++ toString c.end_line ++ "): " ++ c.description ++ "\n" ++ c.content

/-- A partial (read-only) file entry: the fixed banner line joined with the
formatted fragments by newlines. -/
def fmtPartialFile (cs : List CodeChunk) : String :=
  joinNl ("[PARTIAL CONTEXT - Read-only, request full file to edit]"
    :: cs.map fmtChunk)

/-- A full (editable) file entry: the fixed banner plus the whole content. -/
def fmtFullFile (content : String) : String :=
  "[FULL FILE - Ready for editing]\n" ++ content

/-- Result of the packing phase of `get_relevant_context_smart`:
`fullContents` is `full_file_contents`, `chunkContents` is `chunk_contents`,
`totalChars` the final `total_chars` counter, `allFileContents` the returned
`all_file_contents` mapping and `filePaths` the returned `file_paths`. -/
structure PackResult where
  fullContents : List (String × String)
  chunkContents : List (String × List CodeChunk)
  totalChars : Nat
  allFileContents : List (String × String)
  filePaths : List String
deriving Repr

/-- The packing portion of `RAGSystem.get_relevant_context_smart`
(steps after file-set selection): full files first (only when
`include_full_files`), then fragments, then formatting.  `fullCandidates`
is the `files_for_full_content` set in iteration order together with each
file's on-disk content (`none` = unreadable/missing, skipped by the
`except`), and `relevantChunks` is the `search` output. -/
def packContext (includeFull : Bool) (maxTokens : Nat)
    (fullCandidates : List (String × Option String))
    (relevantChunks : List CodeChunk) : PackResult :=
  let budget := maxTokens * 4
  let fullRes :=
    if includeFull then fullPhase budget fullCandidates ([], 0) else ([], 0)
  let chunkRes := chunkPhase budget (fullCandidates.map (fun p => p.1))
    relevantChunks ([], fullRes.2)
  let allFC := fullRes.1.map (fun p => (p.1, fmtFullFile p.2))
    ++ chunkRes.1.map (fun p => (p.1, fmtPartialFile p.2))
  { fullContents := fullRes.1, chunkContents := chunkRes.1,
    totalChars := chunkRes.2, allFileContents := allFC,
    filePaths := fullRes.1.map (fun p => p.1)
      ++ chunkRes.1.map (fun p => p.1) }

/-- Total character count over all values of the returned
`all_file_contents` mapping. -/
def returnedChars (r : PackResult) : Nat :=
  (r.allFileContents.map (fun p => strLen p.2)).sum

/-! ### `RAGSystem._load_cache` and `_should_ignore_file` -/

/-- A project file as `_should_ignore_file` and the freshness computation see
it: the names of its ancestor directories, its own name, its size in bytes
and its modification time (modelled as `ℕ`; the source compares `float`
seconds, and only the order matters). -/
structure PFile where
  parentNames : List String
  name : String
  size : Nat
  mtime : Nat
deriving Repr, DecidableEq

/-- `pathlib.PurePath.suffix` of a file name: the part from the last dot on,
unless the dot is the first or the last character. -/
def suffixOf (name : String) : String :=
  let cs := name.data
  let n := cs.length
  match cs.reverse.findIdx? (fun c => c == '.') with
  | none => ""
  | some r =>
    let i := n - 1 - r
    if 0 < i ∧ i + 1 < n then String.mk (cs.drop i) else ""

/-- The `ignore_dirs` set of `_should_ignore_file`. -/
def ignoreDirs : List String :=
  [".git", "__pycache__", ".vscode", ".idea", "node_modules", "venv", ".env",
   "build", "dist", ".rag_cache", "vendor", "target", ".next", "coverage"]

/-- The `ignore_files` set of `_should_ignore_file`. -/
def ignoreFiles : List String :=
  [".DS_Store", ".gitignore", "package-lock.json", "yarn.lock", "go.sum"]

/-- The `ignore_extensions` set of `_should_ignore_file` (note that a
`pathlib` suffix is the part after the last dot, so the two-dot entries can
never match an actual suffix, exactly as in the source). -/
def ignoreExtensions : List String :=
  [".pyc", ".log", ".swp", ".swo", ".tmp", ".bak", ".min.js", ".min.css",
   ".map", ".lock"]

/-- Python `name.startswith(".")`. -/
def startsWithDot (s : String) : Bool :=
  match s.data with
  | c :: _ => c == '.'
  | [] => false

/-- `RAGSystem._should_ignore_file`: any ancestor directory in
`ignore_dirs`, or the name in `ignore_files`, or the suffix in
`ignore_extensions`, or a hidden file, or larger than 1 MiB. -/
def shouldIgnoreFile (f : PFile) : Bool :=
  f.parentNames.any (fun p => ignoreDirs.contains p)
  || ignoreFiles.contains f.name
  || ignoreExtensions.contains (suffixOf f.name)
  || startsWithDot f.name
  || decide (1024 * 1024 < f.size)

/-- The cache-validity comparison of `_load_cache` on the non-ignored file
list: Python's `max` raises on an empty sequence and the surrounding
`except` then reports an invalid cache, hence the `isEmpty` guard; otherwise
the cache is accepted iff the persisted `project_mtime` is at least the
newest modification time. -/
def loadCacheAcceptsAux (savedMtime : Nat) (tracked : List PFile) : Bool :=
  !tracked.isEmpty
    && decide ((tracked.map (fun f => f.mtime)).foldl max 0 ≤ savedMtime)

/-- `RAGSystem._load_cache`'s freshness decision over the whole project file
listing: filter out ignored files, then compare the saved timestamp with the
maximum modification time. -/
def loadCacheAccepts (savedMtime : Nat) (files : List PFile) : Bool :=
  loadCacheAcceptsAux savedMtime (files.filter (fun f => !shouldIgnoreFile f))

/-! ### `CodeAnalyzer.extract_python_elements` and per-file failure isolation -/

/-- Python regex word character (the ASCII core of the `\w` class). -/
def isWordChar (c : Char) : Bool :=
  c.isAlphanum || c == '_'

/-- One attempted match of the pattern "keyword, one or more whitespace
characters, a captured word" at the head of `l`; on success returns the
captured word and the rest of the input after the match.  Since whitespace
and word characters are disjoint, the greedy scan is exactly the regex
semantics of the fallback patterns in `extract_python_elements`. -/
def matchKwWord (kw : List Char) (l : List Char) : Option (String × List Char) :=
  if l.take kw.length == kw then
    let r1 := l.drop kw.length
    let ws := r1.takeWhile Char.isWhitespace
    if ws.isEmpty then none
    else
      let r2 := r1.dropWhile Char.isWhitespace
      let w := r2.takeWhile isWordChar
      if w.isEmpty then none
      else some (String.mk w, r2.dropWhile isWordChar)
  else none

/-- Left-to-right, non-overlapping scan (the semantics of `re.findall`):
try a match at every position, and continue after the end of each match.
Each successful match consumes at least one character, so the input length
bounds the number of steps. -/
def findallGo (kw : List Char) : Nat → List Char → List String
  | 0, _ => []
  | _, [] => []
  | fuel + 1, c :: rest =>
    match matchKwWord kw (c :: rest) with
    | some (nm, after) => nm :: findallGo kw fuel after
    | none => findallGo kw fuel rest

/-- `re.findall` for the fallback patterns of `extract_python_elements`
(keyword, whitespace, captured word).  Such a scan never fails: with no
match anywhere it returns the empty list. -/
def findallKwWord (kw : String) (s : String) : List String :=
  findallGo kw.data s.data.length s.data

/-- Abstraction of a successful `ast.parse` plus the `ast.walk` loop of
`extract_python_elements`: the function, class and import names the tree
walk collects. -/
structure PyParseResult where
  functions : List String
  classes : List String
  imports : List String
deriving Repr, DecidableEq

/-- Outcome of `ast.parse` on a source string, with the error taxonomy the
`try` in `extract_python_elements` distinguishes: a successful parse (with
the symbol lists the `ast.walk` loop collects), a `SyntaxError` — the only
exception the `except SyntaxError` clause catches — or any other exception
the parser can raise (`ValueError` on a null byte in the source under
CPython 3.11 and earlier, `RecursionError` on deeply nested source on every
version), which that clause does not catch. -/
inductive PyParseOutcome where
  | ok (t : PyParseResult)
  | syntaxError
  | otherError (msg : String)
deriving Repr, DecidableEq

/-- `CodeAnalyzer.extract_python_elements`: on a successful parse the walked
symbol lists are returned; on `SyntaxError` the four regex fallbacks run on
the raw content (`def` names, `class` names, `import` and `from` targets
appended into one import list) — a total scan that merely returns empty
lists when nothing matches; any other parser exception escapes the
`except SyntaxError` clause and propagates out of the analyzer
(`Except.error`), without the fallback running. -/
def extractPythonElements (parsed : PyParseOutcome) (content : String) :
    Except String (List String × List String × List String) :=
  match parsed with
  | PyParseOutcome.ok t => Except.ok (t.functions, t.classes, t.imports)
  | PyParseOutcome.syntaxError =>
    Except.ok (findallKwWord "def" content, findallKwWord "class" content,
      findallKwWord "import" content ++ findallKwWord "from" content)
  | PyParseOutcome.otherError msg => Except.error msg

/-- The per-file loop of `RAGSystem.index_project`: each file's read-and-chunk
step runs inside `try`; a failing file (`Except.error`) contributes nothing
and the loop continues, a succeeding file extends `all_chunks`. -/
def collectProjectChunks (perFile : List (Except String (List ChunkDict))) :
    List ChunkDict :=
  perFile.foldl
    (fun acc r => match r with
      | Except.ok cs => acc ++ cs
      | Except.error _ => acc)
    []

/-! ### `FileDependencyAnalyzer.analyze_project`, second pass -/

/-- The per-chunk inputs of the edge-building pass: the chunk's file, its
flat `imports` list and its `imported_from` mapping (import source string to
imported symbols). -/
structure DepChunk where
  file_path : String
  imports : List String
  imported_from : List (String × List String)
deriving Repr, DecidableEq

/-- The edges `analyze_project`'s second pass adds for one chunk:
for each import symbol found in `symbol_to_file`, an edge to the defining
file unless that is the chunk's own file; for each import source resolved by
`_resolve_import_path` to a truthy path, an edge to the resolved file unless
that is the chunk's own file.  `symbolToFile` abstracts the table built by
the first pass and `resolve` abstracts `_resolve_import_path`; the no-self-edge
guards hold whatever those produce. -/
def edgesForChunk (symbolToFile : String → Option String)
    (resolve : String → String → Option String) (c : DepChunk) :
    List (String × String) :=
  (c.imports.filterMap (fun imp =>
    (symbolToFile imp).bind (fun depFile =>
      if depFile ≠ c.file_path then some (c.file_path, depFile) else none)))
  ++ (c.imported_from.filterMap (fun sp =>
    (resolve sp.1 c.file_path).bind (fun r =>
      if r ≠ "" ∧ r ≠ c.file_path then some (c.file_path, r) else none)))

/-- All edges added by the second pass of `analyze_project` over the chunk
collection (the `DiGraph` deduplicates parallel edges, which cannot create a
self-edge, so the edge list is the faithful carrier of the claim). -/
def analyzeProjectEdges (symbolToFile : String → Option String)
    (resolve : String → String → Option String) (chunks : List DepChunk) :
    List (String × String) :=
  chunks.foldl (fun acc c => acc ++ edgesForChunk symbolToFile resolve c) []

/-! ### Concrete data for witnesses and counterexamples -/

/-- A six-line text file (so `chunk_size = 6` and the window step is 1). -/
def c1ex : String := "a\nb\nc\nd\ne\nf"

/-- Two 101-character contents agreeing on their first 100 characters. -/
def longContentA : String := String.mk (List.replicate 100 'a' ++ ['x'])

/-- Second content with the same 100-character head as `longContentA`. -/
def longContentB : String := String.mk (List.replicate 100 'a' ++ ['y'])

/-- A fragment whose content plus description is 4 characters, fitting a
4-character budget exactly. -/
def c3chunk : CodeChunk :=
  { content := "abc", file_path := "f.py", chunk_id := "c3", start_line := 0,
    end_line := 0, chunk_type := "block", description := "x",
    embedding := none }

/-- A one-chunk project for the index-alignment witness. -/
def c2chunk : ChunkDict :=
  { content := "x = 1", file_path := "a.py", chunk_id := "id0",
    start_line := 0, end_line := 0, chunk_type := "module" }

/-- A non-ignored project file (suffix `.py`, small, under `src`). -/
def c7file : PFile :=
  { parentNames := ["src", "proj"], name := "main.py", size := 10, mtime := 10 }

/-- A symbol table resolving `helper` to `b.py` (first-pass abstraction). -/
def c10symtab : String → Option String :=
  fun s => if s = "helper" then some "b.py" else none

/-- An import-source resolver that resolves nothing. -/
def c10resolve : String → String → Option String := fun _ _ => none

/-- A chunk of `a.py` importing the symbol `helper`. -/
def c10chunk : DepChunk :=
  { file_path := "a.py", imports := ["helper"], imported_from := [] }

/-- Chunk map and candidates for the search theorems: chunk `a` lives in the
caller's current file, chunk `b` elsewhere; both candidates carry the same
base score 1. -/
def chA : CodeChunk :=
  { content := "def f(): pass", file_path := "cur.py", chunk_id := "a",
    start_line := 0, end_line := 0, chunk_type := "function",
    description := "da", embedding := none }

/-- The competing chunk from another file with the same base score. -/
def chB : CodeChunk :=
  { content := "def g(): pass", file_path := "oth.py", chunk_id := "b",
    start_line := 0, end_line := 0, chunk_type := "function",
    description := "db", embedding := none }

/-- Fragment map holding `chA` and `chB` under their ids. -/
def searchMap : List (String × CodeChunk) := [("a", chA), ("b", chB)]

/-- Id list parallel to the two-vector index. -/
def searchIds : List String := ["a", "b"]

/-! ## Theorems -/

/-! ### Helper lemmas -/

theorem foldl_max_init_le : ∀ (l : List Nat) (init : Nat), init ≤ l.foldl max init
  | [], _ => Nat.le_refl _
  | x :: l, init =>
    Nat.le_trans (Nat.le_max_left init x) (foldl_max_init_le l (max init x))

theorem mem_le_foldl_max : ∀ (l : List Nat) (init x : Nat), x ∈ l → x ≤ l.foldl max init := by
  intro l
  induction l with
  | nil => intro _ x hx; cases hx
  | cons a l ih =>
    intro init x hx
    rcases List.mem_cons.mp hx with rfl | hx
    · exact Nat.le_trans (Nat.le_max_right init x) (foldl_max_init_le l (max init x))
    · exact ih (max init a) x hx

theorem collectProjectChunks_from (step : List ChunkDict → Except String (List ChunkDict) → List ChunkDict)
    (hstep : step = fun acc r => match r with
      | Except.ok cs => acc ++ cs
      | Except.error _ => acc) :
    ∀ (l : List (Except String (List ChunkDict))) (init : List ChunkDict),
      l.foldl step init = init ++ l.foldl step [] := by
  subst hstep
  intro l
  induction l with
  | nil => intro init; simp
  | cons r l ih =>
    intro init
    cases r with
    | ok cs =>
      simp only [List.foldl_cons]
      rw [List.nil_append, ih (init ++ cs), ih cs, List.append_assoc]
    | error e =>
      simp only [List.foldl_cons]
      rw [ih init]

/-! ### Claim C10 -/

theorem edgesForChunk_no_self (symbolToFile : String → Option String)
    (resolve : String → String → Option String) (c : DepChunk) :
    ∀ e ∈ edgesForChunk symbolToFile resolve c, e.1 ≠ e.2 := by
  intro e he
  simp only [edgesForChunk, List.mem_append, List.mem_filterMap] at he
  rcases he with ⟨imp, _, hf⟩ | ⟨sp, _, hf⟩
  · rcases Option.bind_eq_some.mp hf with ⟨depFile, _, hif⟩
    split_ifs at hif with hne
    injection hif with hif
    subst hif
    exact fun hcontra => hne hcontra.symm
  · rcases Option.bind_eq_some.mp hf with ⟨r, _, hif⟩
    split_ifs at hif with hne
    injection hif with hif
    subst hif
    exact fun hcontra => hne.2 hcontra.symm

theorem mem_analyzeProjectEdges (symbolToFile : String → Option String)
    (resolve : String → String → Option String) :
    ∀ (chunks : List DepChunk) (acc : List (String × String)) (e : String × String),
      e ∈ chunks.foldl (fun acc c => acc ++ edgesForChunk symbolToFile resolve c) acc →
      e ∈ acc ∨ ∃ c, c ∈ chunks ∧ e ∈ edgesForChunk symbolToFile resolve c := by
  intro chunks
  induction chunks with
  | nil => intro acc e he; exact Or.inl he
  | cons c chunks ih =>
    intro acc e he
    rcases ih (acc ++ edgesForChunk symbolToFile resolve c) e he with hacc | ⟨c2, hc2, he2⟩
    · rcases List.mem_append.mp hacc with h | h
      · exact Or.inl h
      · exact Or.inr ⟨c, List.mem_cons_self c chunks, h⟩
    · exact Or.inr ⟨c2, List.mem_cons_of_mem c hc2, he2⟩

/-- C10: every edge the second pass of `FileDependencyAnalyzer.analyze_project`
adds — whether resolved through the symbol-to-file table or through an
import-source path — joins two distinct files: both insertions are guarded by
an inequality with the importing file, so the dependency graph never contains
a self-edge, for any symbol table and any import resolver. -/
theorem C10_no_self_edges (symbolToFile : String → Option String)
    (resolve : String → String → Option String) (chunks : List DepChunk)
    (e : String × String) (he : e ∈ analyzeProjectEdges symbolToFile resolve chunks) :
    e.1 ≠ e.2 := by
  rcases mem_analyzeProjectEdges symbolToFile resolve chunks [] e he with h | ⟨c, _, hc⟩
  · cases h
  · exact edgesForChunk_no_self symbolToFile resolve c e hc

theorem C10_no_self_edges_witness :
    (("a.py", "b.py") : String × String).1 ≠ (("a.py", "b.py") : String × String).2 :=
  C10_no_self_edges c10symtab c10resolve [c10chunk] ("a.py", "b.py") (by decide)

/-! ### Claim C9 -/

/-- C9: `RAGSystem.search` on a system whose vector index is absent or whose
fragment map is empty returns the empty list (the guard
`if not self.index or not self.chunks: return []`), for every query
(candidate list), every `k` and any current file. -/
theorem C9_search_unbuilt_empty (index : Option (List (List ℚ)))
    (m : List (String × CodeChunk)) (ids : List String) (k : Nat)
    (cf : Option String) (cands : List (ℚ × Nat))
    (h : index = none ∨ m = []) :
    searchModel index m ids k cf cands = [] := by
  rcases h with h | h <;> subst h <;> simp [searchModel]

theorem C9_search_unbuilt_empty_witness :
    searchModel none searchMap searchIds 5 (some "cur.py") [(1, 0)] = [] :=
  C9_search_unbuilt_empty none searchMap searchIds 5 (some "cur.py") [(1, 0)]
    (Or.inl rfl)

/-! ### Claim C6 -/

/-- C6: the fragment id is a deterministic function of
`(file_path, start_line, end_line, content[:100])`.  First conjunct: for any
digest function (md5 included), two contents agreeing on their first 100
characters give the same id at the same path and span — so the id depends on
nothing but those four values.  Second conjunct: every chunk the generic
chunker produces carries exactly the id computed from its own path, span and
content, so re-chunking the same unchanged file (in one run or across runs)
reproduces the identical id sequence. -/
theorem C6_chunk_id_deterministic :
    (∀ (hash : String → String) (fp : String) (s e : Nat) (c c' : String),
      takeChars c 100 = takeChars c' 100 →
      chunkIdWith hash fp s e c = chunkIdWith hash fp s e c')
    ∧ (∀ (content fp : String) (cs : List ChunkDict) (ch : ChunkDict),
      chunkGeneric content fp = some cs → ch ∈ cs →
      ch.chunk_id = createChunkId fp ch.start_line ch.end_line ch.content) := by
  constructor
  · intro hash fp s e c c' h
    unfold chunkIdWith createChunkId
    rw [h]
  · intro content fp cs ch hsome hmem
    unfold chunkGeneric at hsome
    by_cases h5 : min 50 (strLines content).length ≤ 5
    · rw [if_pos h5] at hsome
      by_cases heq : min 50 (strLines content).length = 5
      · rw [if_pos heq] at hsome; cases hsome
      · rw [if_neg heq] at hsome
        injection hsome with hsome
        subst hsome
        cases hmem
    · rw [if_neg h5] at hsome
      injection hsome with hsome
      subst hsome
      rcases List.mem_filterMap.mp hmem with ⟨i, _, hw⟩
      simp only [genericWindow] at hw
      split_ifs at hw
      injection hw with hw
      subst hw
      rfl

theorem C6_chunk_id_deterministic_witness :
    chunkIdWith id "f.py" 0 1 longContentA = chunkIdWith id "f.py" 0 1 longContentB :=
  C6_chunk_id_deterministic.1 id "f.py" 0 1 longContentA longContentB (by decide)

/-! ### Claim C8 -/

/-- C8 (amended): first conjunct — on a `SyntaxError`, the one exception the
`except` clause catches, `extract_python_elements` returns exactly the four
regex fallback scans of the raw content, total functions that merely return
empty lists when nothing matches, never an error.  Second conjunct — in the
per-file loop of `index_project`, one file's failure (the `except` around
read, analysis and chunking, which also receives the parser exceptions the
analyzer lets escape) contributes nothing while every other file's chunks
are kept unchanged: the failure is isolated to that file and the indexing
pass is never aborted.  The original claim's "language analysis never
raises" is false: `except SyntaxError` does not catch every parser
exception (see `C8_counterexample`). -/
theorem C8_analysis_fallback_isolation :
    (∀ content : String,
      extractPythonElements PyParseOutcome.syntaxError content =
        Except.ok (findallKwWord "def" content, findallKwWord "class" content,
          findallKwWord "import" content ++ findallKwWord "from" content))
    ∧ (∀ (xs ys : List (Except String (List ChunkDict))) (e : String),
      collectProjectChunks (xs ++ Except.error e :: ys) =
        collectProjectChunks xs ++ collectProjectChunks ys) := by
  constructor
  · intro content; rfl
  · intro xs ys e
    unfold collectProjectChunks
    rw [List.foldl_append, List.foldl_cons]
    dsimp only
    rw [collectProjectChunks_from _ rfl ys]

/-- C8 is refuted as stated: the `try` in `extract_python_elements` catches
only `SyntaxError`, but `ast.parse` can fail otherwise — on a source string
containing a null byte CPython 3.11 and earlier raise `ValueError`, and
deeply nested source exhausts the compiler stack on every version.  On such
an outcome the exception propagates out of the analyzer and the regex
fallback never runs: language analysis does raise, it does not degrade to
empty symbol lists.  (The per-file handler in `index_project` then drops
the whole file rather than falling back to heuristic extraction.) -/
theorem C8_counterexample :
    extractPythonElements
        (PyParseOutcome.otherError
          "ValueError: source code string cannot contain null bytes")
        "\x00def f(): pass"
      = Except.error "ValueError: source code string cannot contain null bytes" :=
  rfl

/-! ### Claim C7 -/

/-- C7: the persisted cache is accepted only when its freshness timestamp is
at least the modification time of every non-ignored file (first conjunct);
hence touching any non-ignored file so that its modification time exceeds
the persisted timestamp forces a rebuild on the next load (second conjunct);
and the decision only reads the non-ignored files, so changes confined to
ignored files or directories leave it unchanged (third conjunct). -/
theorem C7_cache_validity :
    (∀ (saved : Nat) (files : List PFile) (f : PFile),
      loadCacheAccepts saved files = true → f ∈ files →
      shouldIgnoreFile f = false → f.mtime ≤ saved)
    ∧ (∀ (saved : Nat) (files : List PFile) (f : PFile),
      f ∈ files → shouldIgnoreFile f = false → saved < f.mtime →
      loadCacheAccepts saved files = false)
    ∧ (∀ (saved : Nat) (files files' : List PFile),
      files.filter (fun f => !shouldIgnoreFile f) =
        files'.filter (fun f => !shouldIgnoreFile f) →
      loadCacheAccepts saved files = loadCacheAccepts saved files') := by
  have key : ∀ (saved : Nat) (files : List PFile) (f : PFile),
      loadCacheAccepts saved files = true → f ∈ files →
      shouldIgnoreFile f = false → f.mtime ≤ saved := by
    intro saved files f hacc hmem hign
    unfold loadCacheAccepts loadCacheAcceptsAux at hacc
    rw [Bool.and_eq_true] at hacc
    have hmax := of_decide_eq_true hacc.2
    have hf : f ∈ files.filter (fun f => !shouldIgnoreFile f) :=
      List.mem_filter.mpr ⟨hmem, by rw [hign]; rfl⟩
    have hmm : f.mtime ∈
        (files.filter (fun f => !shouldIgnoreFile f)).map (fun f => f.mtime) :=
      List.mem_map.mpr ⟨f, hf, rfl⟩
    exact le_trans (mem_le_foldl_max _ 0 _ hmm) hmax
  refine ⟨key, ?_, ?_⟩
  · intro saved files f hmem hign hlt
    cases hacc : loadCacheAccepts saved files
    · rfl
    · exact absurd (key saved files f hacc hmem hign) (Nat.not_le.mpr hlt)
  · intro saved files files' hEq
    unfold loadCacheAccepts
    rw [hEq]

theorem C7_cache_validity_witness : loadCacheAccepts 5 [c7file] = false :=
  C7_cache_validity.2.1 5 [c7file] c7file (by decide) (by decide) (by decide)

/-! ### Claim C1 -/

theorem rangeStep_lt (stop step x : Nat) (hstep : 0 < step)
    (hx : x ∈ rangeStep stop step) : x < stop := by
  rcases List.mem_map.mp hx with ⟨t, ht, rfl⟩
  have htlt : t + 1 ≤ (stop + step - 1) / step := List.mem_range.mp ht
  have h1 : (t + 1) * step ≤ ((stop + step - 1) / step) * step :=
    Nat.mul_le_mul_right step htlt
  have h2 : ((stop + step - 1) / step) * step ≤ stop + step - 1 :=
    Nat.div_mul_le_self _ _
  have h3 : (t + 1) * step = t * step + step := Nat.succ_mul t step
  rw [h3] at h1
  generalize hA : t * step = a at h1 ⊢
  generalize hB : ((stop + step - 1) / step) * step = b at h1 h2
  omega

theorem genericWindow_eq_some (content fp : String) (i : Nat) (ch : ChunkDict)
    (h : genericWindow content fp i = some ch) :
    ch.start_line = i ∧
      ch.end_line =
        min (i + min 50 (strLines content).length) (strLines content).length - 1 := by
  simp only [genericWindow] at h
  split_ifs at h
  injection h with h
  subst h
  exact ⟨rfl, rfl⟩

theorem genericWindows_pairwise (content fp : String)
    (hstep : 0 < min 50 (strLines content).length - 5) :
    List.Pairwise (fun a b : ChunkDict => a.start_line < b.start_line)
      (genericWindows content fp) := by
  unfold genericWindows
  apply List.Pairwise.filterMap (genericWindow content fp)
    (R := fun i j : Nat => i < j)
  · intro i j hij ch hch ch' hch'
    rw [(genericWindow_eq_some content fp i ch hch).1,
      (genericWindow_eq_some content fp j ch' hch').1]
    exact hij
  · unfold rangeStep
    apply List.Pairwise.map (R := fun i j : Nat => i < j)
    · intro a b hab
      exact (Nat.mul_lt_mul_right hstep).mpr hab
    · exact List.pairwise_lt_range _

theorem all_zip_tail_of_pairwise :
    ∀ (cs : List ChunkDict),
      List.Pairwise (fun a b : ChunkDict => a.start_line < b.start_line) cs →
      ((cs.zip cs.tail).all fun p => p.1.start_line < p.2.start_line) = true := by
  intro cs
  induction cs with
  | nil => intro _; rfl
  | cons a t ih =>
    intro hp
    cases t with
    | nil => rfl
    | cons b t2 =>
      rw [List.pairwise_cons] at hp
      have hab : a.start_line < b.start_line := hp.1 b (List.mem_cons_self b t2)
      have htail := ih hp.2
      simp only [List.tail_cons, List.zip_cons_cons, List.all_cons] at htail ⊢
      rw [decide_eq_true hab, htail, Bool.true_and]

/-- C1 (amended): the fragments of the generic fallback chunker are strictly
ordered by `start_line` and each span is well formed and contained in the
file (`start_line <= end_line <= last line`).  The original claim's exact
tiling fails: the sliding window advances by `chunk_size - 5` lines, so
consecutive fragments overlap instead of starting at the previous end plus
one (see `C1_counterexample`), and all-whitespace windows are dropped. -/
theorem C1_generic_span_invariant (content fp : String) (cs : List ChunkDict)
    (h : chunkGeneric content fp = some cs) :
    spanInvariant cs (strLines content).length = true := by
  unfold chunkGeneric at h
  by_cases h5 : min 50 (strLines content).length ≤ 5
  · rw [if_pos h5] at h
    by_cases heq : min 50 (strLines content).length = 5
    · rw [if_pos heq] at h; cases h
    · rw [if_neg heq] at h
      injection h with h
      subst h
      rfl
  · rw [if_neg h5] at h
    injection h with h
    subst h
    have hstep : 0 < min 50 (strLines content).length - 5 := by omega
    unfold spanInvariant
    rw [Bool.and_eq_true]
    constructor
    · exact all_zip_tail_of_pairwise _ (genericWindows_pairwise content fp hstep)
    · rw [List.all_eq_true]
      intro ch hch
      rcases List.mem_filterMap.mp hch with ⟨i, hi, hw⟩
      have hlt : i < (strLines content).length :=
        rangeStep_lt _ _ i hstep hi
      rcases genericWindow_eq_some content fp i ch hw with ⟨hs, he⟩
      have hmin : 0 < min 50 (strLines content).length := by omega
      rw [Bool.and_eq_true, decide_eq_true_eq, decide_eq_true_eq, hs, he]
      omega

theorem C1_generic_span_invariant_witness :
    (chunkGeneric c1ex "notes.txt").map
        (fun cs => spanInvariant cs (strLines c1ex).length) = some true := by
  rcases hM : chunkGeneric c1ex "notes.txt" with _ | cs
  · exact absurd hM (by decide)
  · rw [Option.map_some', C1_generic_span_invariant c1ex "notes.txt" cs hM]

/-- C1 is refuted as stated: chunking the six-line text file `c1ex` with the
generic fallback produces six fragments with spans
(0,5), (1,5), (2,5), (3,5), (4,5), (5,5) — the second fragment starts at
line 1 although the first ends at line 5, so spans overlap and lines are
covered more than once, contradicting the claimed contiguous exact cover. -/
theorem C1_counterexample :
    ((chunkGeneric c1ex "notes.txt").map
        (fun cs => cs.map (fun c => (c.start_line, c.end_line))) =
      some [(0, 5), (1, 5), (2, 5), (3, 5), (4, 5), (5, 5)])
    ∧ (chunkGeneric c1ex "notes.txt").map
        (fun cs => specContiguousCover cs (strLines c1ex).length) = some false := by
  constructor <;> decide

/-! ### Claim C3 -/

theorem fullPhase_le (budget : Nat) :
    ∀ (cands : List (String × Option String)) (acc : List (String × String))
      (tot : Nat), tot ≤ budget → (fullPhase budget cands (acc, tot)).2 ≤ budget := by
  intro cands
  induction cands with
  | nil => intro acc tot h; exact h
  | cons pc rest ih =>
    rcases pc with ⟨p, c⟩
    cases c with
    | none =>
      intro acc tot h
      simp only [fullPhase]
      exact ih acc tot h
    | some c =>
      intro acc tot h
      simp only [fullPhase]
      split_ifs with hfit
      · exact ih _ _ hfit
      · exact ih _ _ h

theorem fullPhase_mem (budget : Nat) :
    ∀ (cands : List (String × Option String)) (acc : List (String × String))
      (tot : Nat) (p c), (p, c) ∈ (fullPhase budget cands (acc, tot)).1 →
      (p, c) ∈ acc ∨ (p, some c) ∈ cands := by
  intro cands
  induction cands with
  | nil => intro acc tot p c h; exact Or.inl h
  | cons pc rest ih =>
    rcases pc with ⟨p0, c0⟩
    cases c0 with
    | none =>
      intro acc tot p c h
      simp only [fullPhase] at h
      rcases ih acc tot p c h with h | h
      · exact Or.inl h
      · exact Or.inr (List.mem_cons_of_mem _ h)
    | some c0 =>
      intro acc tot p c h
      simp only [fullPhase] at h
      split_ifs at h with hfit
      · rcases ih _ _ p c h with h | h
        · rcases List.mem_append.mp h with h | h
          · exact Or.inl h
          · rcases List.mem_singleton.mp h with h
            injection h with h1 h2
            subst h1; subst h2
            exact Or.inr (List.mem_cons_self _ _)
        · exact Or.inr (List.mem_cons_of_mem _ h)
      · rcases ih _ _ p c h with h | h
        · exact Or.inl h
        · exact Or.inr (List.mem_cons_of_mem _ h)

theorem chunkPhase_le (budget : Nat) (fullSet : List String) :
    ∀ (chs : List CodeChunk) (acc : List (String × List CodeChunk)) (tot : Nat),
      tot ≤ budget → (chunkPhase budget fullSet chs (acc, tot)).2 ≤ budget := by
  intro chs
  induction chs with
  | nil => intro acc tot h; exact h
  | cons c rest ih =>
    intro acc tot h
    simp only [chunkPhase]
    split_ifs with hskip hbreak
    · exact ih acc tot h
    · exact h
    · exact ih _ _ (Nat.le_of_not_lt hbreak)

/-- C3 (amended): the budget bookkeeping of
`get_relevant_context_smart` — the running `total_chars`, which counts each
included full file's content plus each included fragment's content and
description — never exceeds `max_tokens * 4`: a full file is added only when
it fits the remaining budget (and is stored whole, never truncated: second
conjunct), and fragment appending stops at the first fragment that would
exceed the budget.  The original claim fails for the returned mapping
because the fixed banner and per-fragment header text added during
formatting is not charged against the budget (see `C3_counterexample`). -/
theorem C3_budget_accounting :
    (∀ (incl : Bool) (mt : Nat) (fullC : List (String × Option String))
      (chs : List CodeChunk), (packContext incl mt fullC chs).totalChars ≤ mt * 4)
    ∧ (∀ (incl : Bool) (mt : Nat) (fullC : List (String × Option String))
      (chs : List CodeChunk) (p c), (p, c) ∈ (packContext incl mt fullC chs).fullContents →
      (p, some c) ∈ fullC) := by
  constructor
  · intro incl mt fullC chs
    have h0 : (if incl then fullPhase (mt * 4) fullC ([], 0) else ([], 0)).2 ≤ mt * 4 := by
      cases incl
      · exact Nat.zero_le _
      · exact fullPhase_le (mt * 4) fullC [] 0 (Nat.zero_le _)
    exact chunkPhase_le (mt * 4) (fullC.map (fun p => p.1)) chs _ _ h0
  · intro incl mt fullC chs p c hmem
    simp only [packContext] at hmem
    cases incl with
    | false => cases hmem
    | true =>
      rcases fullPhase_mem (mt * 4) fullC [] 0 p c (by simpa using hmem) with h | h
      · cases h
      · exact h

theorem C3_budget_accounting_witness :
    (("a.py", some "hi") : String × Option String) ∈
      ([("a.py", some "hi")] : List (String × Option String)) :=
  C3_budget_accounting.2 true 10 [("a.py", some "hi")] [] "a.py" "hi" (by decide)

/-- C3 is refuted as stated: with `max_tokens = 1` (a 4-character budget), no
full-file candidates at all (so the "one full file being tested for fit"
contributes 0), and one searched fragment whose content plus description is
exactly 4 characters, the fragment is packed, yet the returned
`all_file_contents` value carries the fixed partial-context banner and the
fragment header, so its total character count far exceeds the budget. -/
theorem C3_counterexample :
    1 * 4 < returnedChars (packContext true 1 [] [c3chunk]) := by decide

/-! ### Claim C4 -/

theorem collectGo_countP (k : Nat) (ids : List String)
    (m : List (String × CodeChunk)) (cf : Option String) :
    ∀ (cands : List (ℚ × Nat)) (res : List (CodeChunk × ℚ)) (cnt : String → Nat),
      (∀ f : String, res.countP (fun p => p.1.file_path == f) ≤ cnt f ∧ cnt f ≤ 3) →
      ∀ fp, (collectGo k ids m cf cands res cnt).countP
          (fun p => p.1.file_path == fp) ≤ 3 := by
  intro cands
  induction cands with
  | nil => intro res cnt hinv fp; exact (hinv fp).1.trans (hinv fp).2
  | cons cand rest ih =>
    rcases cand with ⟨score, idx⟩
    intro res cnt hinv fp
    simp only [collectGo]
    set ch := assocGetChunk m (ids.getD idx "") with hch
    by_cases hidx : idx < ids.length
    · rw [if_pos hidx]
      by_cases hfc : cnt ch.file_path < 3
      · simp only [if_pos hfc]
        have hinv2 : ∀ f : String,
            (res ++ [(ch, boostScore cf ch score)]).countP
                (fun p => p.1.file_path == f) ≤
              (fun x => if x = ch.file_path then cnt ch.file_path + 1 else cnt x) f
            ∧ (fun x => if x = ch.file_path then cnt ch.file_path + 1 else cnt x) f ≤ 3 := by
          intro f
          have hsingle : List.countP (fun p : CodeChunk × ℚ => p.1.file_path == f)
              [(ch, boostScore cf ch score)] = if f = ch.file_path then 1 else 0 := by
            by_cases hf : f = ch.file_path
            · rw [if_pos hf]
              simp [List.countP_cons, hf]
            · rw [if_neg hf]
              simp only [List.countP_cons, List.countP_nil, Nat.zero_add]
              rw [if_neg (fun hc => hf (eq_of_beq hc).symm)]
          have hres := (hinv f).1
          have hcnt3 := (hinv f).2
          constructor
          · show _ ≤ (if f = ch.file_path then cnt ch.file_path + 1 else cnt f)
            rw [List.countP_append, hsingle]
            by_cases hf : f = ch.file_path
            · rw [if_pos hf, if_pos hf]
              have hcc : cnt f = cnt ch.file_path := by rw [hf]
              omega
            · rw [if_neg hf, if_neg hf]
              omega
          · show (if f = ch.file_path then cnt ch.file_path + 1 else cnt f) ≤ 3
            by_cases hf : f = ch.file_path
            · rw [if_pos hf]
              omega
            · rw [if_neg hf]
              exact hcnt3
        by_cases hk : k ≤ (res ++ [(ch, boostScore cf ch score)]).length
        · rw [if_pos hk]
          exact ((hinv2 fp).1).trans (hinv2 fp).2
        · rw [if_neg hk]
          exact ih _ _ hinv2 fp
      · simp only [if_neg hfc]
        by_cases hk : k ≤ res.length
        · rw [if_pos hk]
          exact (hinv fp).1.trans (hinv fp).2
        · rw [if_neg hk]
          exact ih _ _ hinv fp
    · rw [if_neg hidx]
      exact ih _ _ hinv fp

/-- C4: for every query (candidate list), every `k` and any current file,
`RAGSystem.search` returns at most `k` fragments, and no single `file_path`
occurs more than 3 times among them: the per-file cap of 3 is enforced while
the over-fetched candidate pool is traversed, before the sort and the
truncation to the top `k` by adjusted score. -/
theorem C4_search_bounds (index : Option (List (List ℚ)))
    (m : List (String × CodeChunk)) (ids : List String) (k : Nat)
    (cf : Option String) (cands : List (ℚ × Nat)) :
    (searchModel index m ids k cf cands).length ≤ k
    ∧ ∀ fp, (searchModel index m ids k cf cands).countP
        (fun c => c.file_path == fp) ≤ 3 := by
  unfold searchModel
  split_ifs with hgate
  · exact ⟨Nat.zero_le _, fun fp => Nat.zero_le _⟩
  · constructor
    · unfold searchCore
      rw [List.length_map, List.length_take]
      exact Nat.min_le_left _ _
    · intro fp
      unfold searchCore
      rw [List.countP_map]
      have h1 := (List.take_sublist k
        (sortDesc (collectGo k ids m cf cands [] (fun _ => 0)))).countP_le
        (p := (fun c : CodeChunk => c.file_path == fp) ∘ (fun p => p.1))
      have h2 : (sortDesc (collectGo k ids m cf cands [] (fun _ => 0))).countP
            ((fun c : CodeChunk => c.file_path == fp) ∘ (fun p => p.1)) =
          (collectGo k ids m cf cands [] (fun _ => 0)).countP
            ((fun c : CodeChunk => c.file_path == fp) ∘ (fun p => p.1)) :=
        (List.perm_insertionSort _ _).countP_eq _
      have h3 : (collectGo k ids m cf cands [] (fun _ => 0)).countP
          (fun p => p.1.file_path == fp) ≤ 3 :=
        collectGo_countP k ids m cf cands [] (fun _ => 0)
          (fun f => ⟨Nat.le_refl 0, Nat.zero_le 3⟩) fp
      exact le_trans (le_trans h1 (le_of_eq h2)) h3

/-! ### Claim C5 -/

theorem collectGo_length (k : Nat) (ids : List String)
    (m : List (String × CodeChunk)) (cf : Option String) :
    ∀ (cands : List (ℚ × Nat)) (res : List (CodeChunk × ℚ)) (cnt : String → Nat),
      res.length < k → (collectGo k ids m cf cands res cnt).length ≤ k := by
  intro cands
  induction cands with
  | nil => intro res cnt h; exact Nat.le_of_lt h
  | cons cand rest ih =>
    rcases cand with ⟨score, idx⟩
    intro res cnt h
    simp only [collectGo]
    set ch := assocGetChunk m (ids.getD idx "") with hch
    by_cases hidx : idx < ids.length
    · rw [if_pos hidx]
      by_cases hfc : cnt ch.file_path < 3
      · simp only [if_pos hfc]
        by_cases hk : k ≤ (res ++ [(ch, boostScore cf ch score)]).length
        · rw [if_pos hk, List.length_append]
          simpa using h
        · rw [if_neg hk]
          exact ih _ _ (Nat.lt_of_not_le hk)
      · simp only [if_neg hfc]
        by_cases hk : k ≤ res.length
        · rw [if_pos hk]
          exact Nat.le_of_lt h
        · rw [if_neg hk]
          exact ih _ _ h
    · rw [if_neg hidx]
      exact ih _ _ h

/-- C5 (amended): if both fragments survive the candidate loop — neither
excluded by the per-file cap of 3 nor by the stop at `k` collected results —
with a shared positive base score, of which exactly the first is boosted
(it carries adjusted score `s * 1.5`, the other plain `s`), then the boosted
fragment appears strictly earlier in the list `search` returns.  The
original claim fails without these provisos: the loop stops at `k` results
before any sorting, so the current-file fragment can be excluded entirely
while the equal-scored other fragment is included (see
`C5_counterexample`); and for a negative base score the 1.5 factor lowers
the rank instead of raising it. -/
theorem C5_boost_rank (index : Option (List (List ℚ)))
    (m : List (String × CodeChunk)) (ids : List String)
    (cands : List (ℚ × Nat)) (k : Nat) (cf : Option String) (s : ℚ)
    (a b : CodeChunk) (hk : 1 ≤ k) (hs : 0 < s)
    (hA : (a, s * (3 / 2)) ∈ collectGo k ids m cf cands [] (fun _ => 0))
    (hB : (b, s) ∈ collectGo k ids m cf cands [] (fun _ => 0))
    (hidx : index ≠ none) (hm : m ≠ []) :
    ∃ i j : Nat, i < j
      ∧ (searchModel index m ids k cf cands).get? i = some a
      ∧ (searchModel index m ids k cf cands).get? j = some b := by
  have hgate : (index.isNone || m.isEmpty) = false := by
    rcases index with _ | v
    · exact absurd rfl hidx
    · rcases m with _ | q
      · exact absurd rfl hm
      · rfl
  unfold searchModel
  rw [if_neg (by rw [hgate]; exact Bool.false_ne_true)]
  unfold searchCore
  set res := collectGo k ids m cf cands [] (fun _ => 0) with hresdef
  have hlen : res.length ≤ k :=
    collectGo_length k ids m cf cands [] (fun _ => 0)
      (Nat.lt_of_lt_of_le Nat.zero_lt_one hk)
  have hperm : List.Perm (sortDesc res) res := List.perm_insertionSort _ _
  have htake : (sortDesc res).take k = sortDesc res :=
    List.take_of_length_le (by rw [hperm.length_eq]; exact hlen)
  rw [htake]
  have hsorted : List.Pairwise (fun x y : CodeChunk × ℚ => y.2 ≤ x.2)
      (sortDesc res) := List.sorted_insertionSort _ _
  obtain ⟨iA, hiA⟩ := List.mem_iff_get.mp (hperm.mem_iff.mpr hA)
  obtain ⟨iB, hiB⟩ := List.mem_iff_get.mp (hperm.mem_iff.mpr hB)
  have hij : (iA : Nat) < (iB : Nat) := by
    rcases Nat.lt_trichotomy iA iB with h | h | h
    · exact h
    · exfalso
      have heq : (sortDesc res).get iA = (sortDesc res).get iB := by
        congr 1
        exact Fin.ext h
      rw [hiA, hiB] at heq
      have : s * (3 / 2) = s := (Prod.mk.injEq _ _ _ _).mp heq |>.2
      linarith
    · exfalso
      have hrel := List.pairwise_iff_get.mp hsorted iB iA h
      rw [hiA, hiB] at hrel
      linarith
  refine ⟨iA, iB, hij, ?_, ?_⟩
  · rw [List.get?_map, List.get?_eq_get iA.isLt, hiA]
    rfl
  · rw [List.get?_map, List.get?_eq_get iB.isLt, hiB]
    rfl

theorem c5collect_eq :
    collectGo 2 searchIds searchMap (some "cur.py") [(1, 0), (1, 1)] []
      (fun _ => 0) = [(chA, 1 * (3 / 2)), (chB, 1)] := rfl

theorem C5_boost_rank_witness :
    ∃ i j : Nat, i < j
      ∧ (searchModel (some [[1]]) searchMap searchIds 2 (some "cur.py")
          [(1, 0), (1, 1)]).get? i = some chA
      ∧ (searchModel (some [[1]]) searchMap searchIds 2 (some "cur.py")
          [(1, 0), (1, 1)]).get? j = some chB :=
  C5_boost_rank (some [[1]]) searchMap searchIds [(1, 0), (1, 1)] 2
    (some "cur.py") 1 chA chB (by norm_num) (by norm_num)
    (by rw [c5collect_eq]; exact List.mem_cons_self _ _)
    (by rw [c5collect_eq]; exact List.mem_cons_of_mem _ (List.mem_cons_self _ _))
    (by simp) (by simp [searchMap])

/-- C5 is refuted as stated: with `k = 1` and two candidates of identical
base score 1 — ordinal 1 (`chB`, from another file) listed first, ordinal 0
(`chA`, from the caller's current file `cur.py`) second — the loop stops
after collecting `chB`, so the current-file fragment `chA` is excluded from
the result while the equal-scored `chB` is included: the boost cannot
rescue a fragment the `k`-cutoff already dropped. -/
theorem C5_counterexample :
    searchModel (some [[1]]) searchMap searchIds 1 (some "cur.py")
        [(1, 1), (1, 0)] = [chB]
    ∧ chA ∉ searchModel (some [[1]]) searchMap searchIds 1 (some "cur.py")
        [(1, 1), (1, 0)] := by
  have h : searchModel (some [[1]]) searchMap searchIds 1 (some "cur.py")
      [(1, 1), (1, 0)] = [chB] := rfl
  exact ⟨h, by rw [h]; decide⟩

/-! ### Claim C2 -/

theorem indexFold_characterize (embed : ChunkDict → Option (List ℚ))
    (desc : ChunkDict → String) :
    ∀ (l : List ChunkDict) (m : List (String × CodeChunk))
      (es : List (List ℚ)) (ids : List String),
      l.foldl (fun acc cd =>
        match embed cd with
        | some v => (dictInsert acc.1 cd.chunk_id (toCodeChunk cd (desc cd) v),
            acc.2.1 ++ [v], acc.2.2 ++ [cd.chunk_id])
        | none => acc) (m, es, ids)
      = ((embeddedChunks embed l).foldl
          (fun mm p => dictInsert mm p.1.chunk_id (toCodeChunk p.1 (desc p.1) p.2)) m,
         es ++ (embeddedChunks embed l).map (fun p => p.2),
         ids ++ (embeddedChunks embed l).map (fun p => p.1.chunk_id)) := by
  intro l
  induction l with
  | nil => intro m es ids; simp [embeddedChunks]
  | cons cd l ih =>
    intro m es ids
    rcases hcd : embed cd with _ | v
    · have hemb : embeddedChunks embed (cd :: l) = embeddedChunks embed l := by
        simp [embeddedChunks, List.filterMap_cons, hcd]
      simp only [List.foldl_cons, hcd]
      rw [hemb]
      exact ih m es ids
    · have hemb : embeddedChunks embed (cd :: l)
          = (cd, v) :: embeddedChunks embed l := by
        simp [embeddedChunks, List.filterMap_cons, hcd]
      simp only [List.foldl_cons, hcd]
      rw [hemb,
        ih (dictInsert m cd.chunk_id (toCodeChunk cd (desc cd) v))
          (es ++ [v]) (ids ++ [cd.chunk_id])]
      simp [List.append_assoc]

theorem dictFold_append (desc : ChunkDict → String) :
    ∀ (g : List (ChunkDict × List ℚ)) (m : List (String × CodeChunk)),
      (g.map (fun p => p.1.chunk_id)).Nodup →
      (∀ p ∈ g, ∀ q ∈ m, q.1 ≠ p.1.chunk_id) →
      g.foldl (fun mm p => dictInsert mm p.1.chunk_id (toCodeChunk p.1 (desc p.1) p.2)) m
        = m ++ g.map (fun p => (p.1.chunk_id, toCodeChunk p.1 (desc p.1) p.2)) := by
  intro g
  induction g with
  | nil => intro m _ _; simp
  | cons p g ih =>
    intro m hnd hdisj
    have hnd2 : ((p :: g).map (fun p => p.1.chunk_id)).Nodup := hnd
    rw [List.map_cons, List.nodup_cons] at hnd2
    simp only [List.foldl_cons]
    have hins : dictInsert m p.1.chunk_id (toCodeChunk p.1 (desc p.1) p.2)
        = m ++ [(p.1.chunk_id, toCodeChunk p.1 (desc p.1) p.2)] := by
      unfold dictInsert
      rw [if_neg]
      intro hany
      rcases List.any_eq_true.mp hany with ⟨q, hq, hbeq⟩
      exact hdisj p (List.mem_cons_self _ _) q hq (eq_of_beq hbeq)
    rw [hins, ih]
    · rw [List.map_cons, List.append_assoc, List.singleton_append]
    · exact hnd2.2
    · intro p' hp' q hq
      rcases List.mem_append.mp hq with hq | hq
      · exact hdisj p' (List.mem_cons_of_mem _ hp') q hq
      · rcases List.mem_singleton.mp hq with rfl
        intro hEq
        have hEq2 : p.1.chunk_id = p'.1.chunk_id := hEq
        exact hnd2.1 (by rw [hEq2]; exact List.mem_map.mpr ⟨p', hp', rfl⟩)

theorem assocFind_at :
    ∀ (ps : List (String × CodeChunk)),
      (ps.map (fun p => p.1)).Nodup →
      ∀ (i : Nat) (hi : i < ps.length),
        assocFind ps (ps.get ⟨i, hi⟩).1 = some (ps.get ⟨i, hi⟩).2 := by
  intro ps
  induction ps with
  | nil => intro _ i hi; cases hi
  | cons q ps ih =>
    intro hnd i hi
    have hnd2 : (q.1 :: ps.map (fun p => p.1)).Nodup := by simpa using hnd
    rw [List.nodup_cons] at hnd2
    cases i with
    | zero =>
      unfold assocFind
      rw [List.find?_cons_of_pos _ (by simp)]
      rfl
    | succ i =>
      have hi2 : i < ps.length := Nat.lt_of_succ_lt_succ hi
      have hget : ((q :: ps).get ⟨i + 1, hi⟩) = ps.get ⟨i, hi2⟩ := rfl
      have hqne : ¬(q.1 == (ps.get ⟨i, hi2⟩).1) = true := by
        intro hbeq
        exact hnd2.1 ((eq_of_beq hbeq) ▸
          List.mem_map.mpr ⟨ps.get ⟨i, hi2⟩, List.get_mem ps _ _, rfl⟩)
      rw [hget]
      unfold assocFind
      rw [Bool.not_eq_true] at hqne
      rw [List.find?_cons, hqne]
      exact ih hnd2.2 i hi2

/-- C2 (amended): after `index_project`, provided at least one fragment was
successfully embedded and the produced fragment ids are pairwise distinct
(the id-uniqueness invariant the data model asserts), the fragment map, the
ordered id list and the freshly built vector index have equal cardinality,
and for every ordinal `i` the id at position `i` of the id list keys the
fragment in the map whose (normalised) embedding was added at position `i`
of the index.  The unamended claim fails when no fragment is embedded at
all: the map and id list are reset to empty, but `self.index` is rebuilt
only under `if embeddings:`, so a pre-existing vector index survives with
different cardinality (see `C2_counterexample`). -/
theorem C2_index_alignment (prior : Option (List (List ℚ)))
    (embed : ChunkDict → Option (List ℚ)) (normalize : List ℚ → List ℚ)
    (desc : ChunkDict → String) (allChunks : List ChunkDict)
    (good : List (ChunkDict × List ℚ))
    (hg : good = embeddedChunks embed allChunks)
    (hnd : (good.map (fun p => p.1.chunk_id)).Nodup)
    (hne : good ≠ []) :
    (indexProjectCore prior embed normalize desc allChunks).chunkIds.length = good.length
    ∧ (indexProjectCore prior embed normalize desc allChunks).chunks.length = good.length
    ∧ (indexProjectCore prior embed normalize desc allChunks).index
        = some (good.map (fun p => normalize p.2))
    ∧ positionsAligned (indexProjectCore prior embed normalize desc allChunks)
        normalize desc good = true := by
  subst hg
  have hfold := indexFold_characterize embed desc allChunks [] [] []
  have hchunks : (embeddedChunks embed allChunks).foldl
      (fun mm p => dictInsert mm p.1.chunk_id (toCodeChunk p.1 (desc p.1) p.2)) []
      = (embeddedChunks embed allChunks).map
        (fun p => (p.1.chunk_id, toCodeChunk p.1 (desc p.1) p.2)) := by
    have h := dictFold_append desc (embeddedChunks embed allChunks) [] hnd
      (fun p _ q hq => absurd hq (List.not_mem_nil q))
    simpa using h
  have hmapne : (embeddedChunks embed allChunks).map (fun p => p.2) ≠ [] := by
    intro hcontra
    exact hne (List.map_eq_nil.mp hcontra)
  have hstate : indexProjectCore prior embed normalize desc allChunks
      = { chunks := (embeddedChunks embed allChunks).map
            (fun p => (p.1.chunk_id, toCodeChunk p.1 (desc p.1) p.2)),
          chunkIds := (embeddedChunks embed allChunks).map (fun p => p.1.chunk_id),
          index := some (((embeddedChunks embed allChunks).map (fun p => p.2)).map
            normalize) } := by
    unfold indexProjectCore
    rw [hfold]
    dsimp only
    rw [hchunks]
    simp only [List.nil_append]
    rw [if_neg (by simpa using hmapne)]
  rw [hstate]
  refine ⟨by simp, by simp, by simp, ?_⟩
  rw [positionsAligned, List.all_eq_true]
  intro i hi
  have hilt : i < (embeddedChunks embed allChunks).length := List.mem_range.mp hi
  rcases hpair : (embeddedChunks embed allChunks).get ⟨i, hilt⟩ with ⟨cd, v⟩
  have h1 : (embeddedChunks embed allChunks).get? i = some (cd, v) := by
    rw [List.get?_eq_get hilt, hpair]
  have h2 : ((embeddedChunks embed allChunks).map (fun p => p.1.chunk_id)).get? i
      = some cd.chunk_id := by
    rw [List.get?_map, h1]
    rfl
  have h3 : (((embeddedChunks embed allChunks).map (fun p => p.2)).map normalize).get? i
      = some (normalize v) := by
    rw [List.get?_map, List.get?_map, h1]
    rfl
  have hps : ((embeddedChunks embed allChunks).map
        (fun p => (p.1.chunk_id, toCodeChunk p.1 (desc p.1) p.2))).get
          ⟨i, by simpa using hilt⟩
      = (cd.chunk_id, toCodeChunk cd (desc cd) v) := by
    rw [List.get_map, hpair]
  have hfind : assocFind ((embeddedChunks embed allChunks).map
        (fun p => (p.1.chunk_id, toCodeChunk p.1 (desc p.1) p.2))) cd.chunk_id
      = some (toCodeChunk cd (desc cd) v) := by
    have hkeys : (((embeddedChunks embed allChunks).map
          (fun p => (p.1.chunk_id, toCodeChunk p.1 (desc p.1) p.2))).map
          (fun p => p.1)).Nodup := by
      rw [List.map_map]
      exact hnd
    have h := assocFind_at _ hkeys i (by simpa using hilt)
    rw [hps] at h
    exact h
  dsimp only
  rw [Option.getD_some, h1, h2, h3]
  simp [hfind]

/-- C2 is refuted as stated: running `index_project` over a project that
yields no chunks (for instance after every source file was removed), on a
system still holding a one-vector index from an earlier build, resets the
fragment map and the id list to cardinality 0 while `self.index` — rebuilt
only under `if embeddings:` — keeps its single stale vector: the three
collections no longer have equal cardinality. -/
theorem C2_counterexample :
    (indexProjectCore (some [[1]]) (fun _ => none) id (fun _ => "") []).chunks.length = 0
    ∧ (indexProjectCore (some [[1]]) (fun _ => none) id (fun _ => "") []).chunkIds.length = 0
    ∧ (indexProjectCore (some [[1]]) (fun _ => none) id (fun _ => "") []).index
        = some [[1]] :=
  ⟨rfl, rfl, rfl⟩

theorem C2_index_alignment_witness :
    (indexProjectCore none (fun _ => some [1]) id (fun _ => "d") [c2chunk]).chunkIds.length
        = [(c2chunk, ([1] : List ℚ))].length
    ∧ (indexProjectCore none (fun _ => some [1]) id (fun _ => "d") [c2chunk]).chunks.length
        = [(c2chunk, ([1] : List ℚ))].length
    ∧ (indexProjectCore none (fun _ => some [1]) id (fun _ => "d") [c2chunk]).index
        = some ([(c2chunk, ([1] : List ℚ))].map (fun p => id p.2))
    ∧ positionsAligned
        (indexProjectCore none (fun _ => some [1]) id (fun _ => "d") [c2chunk])
        id (fun _ => "d") [(c2chunk, ([1] : List ℚ))] = true :=
  C2_index_alignment none (fun _ => some [1]) id (fun _ => "d") [c2chunk]
    [(c2chunk, [1])] rfl (by simp) (by simp)
